import Mathlib

/-!
Verification of the identifier-stripping and tree-consistency engine
(`remove_ids.py`): a shallow embedding of the `IDRemover` class and proofs
of the specified properties.

Modelling conventions:
* Python strings are `String` (lists of characters compared by code point);
  path segments are handled as `List Char`.
* The JSON navigation manifest is the inductive type `Json`; Python dicts
  are association lists in insertion order (JSON objects have unique keys).
* Code that can raise (`TypeError` on iterating a non-iterable `pages`
  value, `KeyError` on a missing `navigation` field) is embedded in the
  `Option` monad, `none` marking a raised exception.
* The filesystem is abstracted as the list of existing content-file paths;
  `Path.rename` becomes replacement of the source path by the destination.
-/

/-- Code-point test for the regex character class `[A-Za-z0-9]` used in
`extract_filename_without_id` (remove_ids.py line 28). -/
def isAlnumChar (c : Char) : Bool :=
  decide (('A' ≤ c ∧ c ≤ 'Z') ∨ ('a' ≤ c ∧ c ≤ 'z') ∨ ('0' ≤ c ∧ c ≤ '9'))

/-- Semantics of Python `re.match(r'^[A-Za-z0-9]{20,}$', seg)` viewed as a
Boolean (remove_ids.py line 34): the maximal alphanumeric prefix must have
length at least 20 and must be followed by nothing, or — because Python's
`$` also matches just before a final newline — by a single `'\n'`. -/
def matchesIdPattern (seg : List Char) : Bool :=
  decide (20 ≤ (seg.takeWhile isAlnumChar).length) &&
    (decide (seg.dropWhile isAlnumChar = []) || decide (seg.dropWhile isAlnumChar = ['\n']))

/-- Python `name.split('/')` (remove_ids.py line 30): always returns a
non-empty list; empty segments are kept. -/
def splitOnSlash : List Char → List (List Char)
  | [] => [[]]
  | c :: cs =>
    match splitOnSlash cs with
    | [] => [[]]
    | seg :: segs => if c = '/' then [] :: seg :: segs else (c :: seg) :: segs

/-- Python `'/'.join(parts)` (remove_ids.py line 37). -/
def joinSlash : List (List Char) → List Char
  | [] => []
  | [seg] => seg
  | seg :: rest => seg ++ '/' :: joinSlash rest

/-- `IDRemover.extract_filename_without_id` (remove_ids.py lines 20-37):
split on `'/'`, drop every segment matched by the identifier pattern,
rejoin the survivors with `'/'`. -/
def extract_filename_without_id (name : String) : String :=
  ⟨joinSlash ((splitOnSlash name.data).filter (fun part => !matchesIdPattern part))⟩

/-- `IDRemover.convert_path` (remove_ids.py lines 87-89). -/
def convert_path (path : String) : String :=
  extract_filename_without_id path

/-- A path is canonical when no `'/'`-separated segment matches the
identifier pattern. -/
def isCanonical (s : String) : Bool :=
  (splitOnSlash s.data).all (fun seg => !matchesIdPattern seg)

/-- JSON values as loaded by `json.load`; objects are association lists in
insertion order. -/
inductive Json where
  | str : String → Json
  | num : Int → Json
  | bool : Bool → Json
  | null : Json
  | arr : List Json → Json
  | obj : List (String × Json) → Json

/-- Python `mapping.get(k, k)` for the string-to-string rename dict. -/
def dictGet (m : List (String × String)) (k : String) : String :=
  match m with
  | [] => k
  | (k', v) :: rest => if k' = k then v else dictGet rest k

/-- Python `d[k] = v` on a string-keyed dict: overwrite in place when the
key is present, append otherwise. -/
def dictInsert (m : List (String × String)) (k v : String) : List (String × String) :=
  if m.any (fun p => p.1 = k) then m.map (fun p => if p.1 = k then (k, v) else p)
  else m ++ [(k, v)]

/-- The loop body of `IDRemover.build_path_mapping` (remove_ids.py lines
82-85): insert `old ↦ convert_path old` exactly when the two differ. -/
def buildStep (acc : List (String × String)) (old : String) : List (String × String) :=
  let new := convert_path old
  if old ≠ new then dictInsert acc old new else acc

/-- `IDRemover.build_path_mapping` (remove_ids.py lines 75-85) applied to
the collected page list. -/
def build_path_mapping (pages : List String) : List (String × String) :=
  pages.foldl buildStep []

mutual

/-- `IDRemover.extract_all_pages` (remove_ids.py lines 91-109). For a dict
the strings under a `pages` key are gathered first and then every
non-`pages` value is recursed into; for a list every element is recursed
into; every other value contributes nothing. -/
def extract_all_pages : Json → Option (List String)
  | .obj kvs => do
      let ps ← extractPagesPart kvs
      let rest ← extractOthers kvs
      pure (ps ++ rest)
  | .arr items => extractList items
  | _ => pure []

/-- The `if 'pages' in nav_obj` branch of `extract_all_pages`: iterate the
value of the first `pages` key, if any. -/
def extractPagesPart : List (String × Json) → Option (List String)
  | [] => pure []
  | (k, v) :: rest => if k = "pages" then extractPagesValue v else extractPagesPart rest

/-- Python `for page in nav_obj['pages']`: iterating a list yields its
elements (strings appended, dicts recursed, anything else skipped);
iterating a string yields its characters as one-character strings;
iterating a dict yields its keys; iterating a number, boolean or `None`
raises `TypeError`. -/
def extractPagesValue : Json → Option (List String)
  | .arr items => extractPageItems items
  | .str s => pure (s.data.map fun c => String.mk [c])
  | .obj kvs => pure (kvs.map Prod.fst)
  | _ => none

/-- Element handling inside the `pages` loop of `extract_all_pages`
(remove_ids.py lines 97-101). -/
def extractPageItems : List Json → Option (List String)
  | [] => pure []
  | item :: rest => do
      let tail ← extractPageItems rest
      match item with
      | .str s => pure (s :: tail)
      | .obj kvs => do
          let sub ← extract_all_pages (.obj kvs)
          pure (sub ++ tail)
      | _ => pure tail

/-- The `for key, value in nav_obj.items(): if key != 'pages'` loop of
`extract_all_pages` (remove_ids.py lines 102-104). -/
def extractOthers : List (String × Json) → Option (List String)
  | [] => pure []
  | (k, v) :: rest =>
      if k = "pages" then extractOthers rest
      else do
        let sub ← extract_all_pages v
        let tail ← extractOthers rest
        pure (sub ++ tail)

/-- The list branch of `extract_all_pages` (remove_ids.py lines 105-107). -/
def extractList : List Json → Option (List String)
  | [] => pure []
  | item :: rest => do
      let sub ← extract_all_pages item
      let tail ← extractList rest
      pure (sub ++ tail)

end

mutual

/-- `IDRemover.update_nav_structure` (remove_ids.py lines 125-142): map
the value of a `pages` key through the pages rewrite, recurse into every
other dict value and into lists, and return any other value unchanged. -/
def update_nav_structure (m : List (String × String)) : Json → Option Json
  | .obj kvs => do pure (.obj (← updateKvs m kvs))
  | .arr items => do pure (.arr (← updateItems m items))
  | j => pure j

/-- Per-entry dict handling of `update_nav_structure`: the `pages` value
gets the list-comprehension rewrite, every other value is recursed into;
keys and insertion order are preserved. -/
def updateKvs (m : List (String × String)) : List (String × Json) → Option (List (String × Json))
  | [] => pure []
  | (k, v) :: rest => do
      let v' ← if k = "pages" then updatePagesValue m v else update_nav_structure m v
      let rest' ← updateKvs m rest
      pure ((k, v') :: rest')

/-- Python `[mapping.get(page, page) if isinstance(page, str) else
update(page) for page in nav_obj['pages']]` (remove_ids.py lines 129-132):
the result is always a list; iterating a string maps its characters,
iterating a dict maps its keys, iterating a non-iterable raises. -/
def updatePagesValue (m : List (String × String)) : Json → Option Json
  | .arr items => do pure (.arr (← updateItems m items))
  | .str s => pure (.arr (s.data.map fun c => .str (dictGet m (String.mk [c]))))
  | .obj kvs => pure (.arr (kvs.map fun kv => .str (dictGet m kv.1)))
  | _ => none

/-- Element handling shared by the `pages` rewrite and the list branch of
`update_nav_structure` (remove_ids.py lines 129-132 and 136-140): strings
go through the mapping, everything else is recursed into. -/
def updateItems (m : List (String × String)) : List Json → Option (List Json)
  | [] => pure []
  | item :: rest => do
      let item' ← match item with
        | .str s => pure (Json.str (dictGet m s))
        | other => update_nav_structure m other
      let rest' ← updateItems m rest
      pure (item' :: rest')

end

/-- Python `kvs[k]` on an object: first (hence, for JSON, only) match. -/
def objLookup (kvs : List (String × Json)) (k : String) : Option Json :=
  match kvs with
  | [] => none
  | (k', v) :: rest => if k' = k then some v else objLookup rest k

/-- Python `d[k] = v` on an object whose key `k` is already present:
replace the value in place, preserving key order. -/
def objSet (kvs : List (String × Json)) (k : String) (v : Json) : List (String × Json) :=
  kvs.map (fun p => if p.1 = k then (k, v) else p)

/-- Top-level field lookup of a manifest document. -/
def topLookup (doc : Json) (k : String) : Option Json :=
  match doc with
  | .obj kvs => objLookup kvs k
  | _ => none

/-- `IDRemover.update_docs_json` (remove_ids.py lines 111-123): replace
the `navigation` field by its rewrite and leave every other field alone.
A missing `navigation` key or a non-object document raises. -/
def update_docs_json (m : List (String × String)) (docs : Json) : Option Json :=
  match docs with
  | .obj kvs => do
      let nav ← objLookup kvs "navigation"
      let nav' ← update_nav_structure m nav
      pure (.obj (objSet kvs "navigation" nav'))
  | _ => none

/-- Python string comparison `<`: lexicographic on code points, a strict
proper prefix comparing less. -/
def strLtB : List Char → List Char → Bool
  | [], [] => false
  | [], _ :: _ => true
  | _ :: _, [] => false
  | c :: cs, d :: ds => decide (c < d) || (decide (c = d) && strLtB cs ds)

/-- Python tuple comparison `(a₁, a₂) <= (b₁, b₂)` on string pairs, the
order used by `sorted(mapping.items())`. -/
def pyPairLE (a b : String × String) : Bool :=
  strLtB a.1.data b.1.data ||
    (decide (a.1 = b.1) && (strLtB a.2.data b.2.data || decide (a.2 = b.2)))

/-- `pyPairLE` as a relation, for use with `List.insertionSort`. -/
def pairLE (a b : String × String) : Prop :=
  pyPairLE a b = true

instance : DecidableRel pairLE :=
  fun a b => decidable_of_iff (pyPairLE a b = true) Iff.rfl

/-- Python `sorted(mapping.items())` (remove_ids.py lines 46 and 153):
stable ascending sort by the pair order. -/
def pySorted (m : List (String × String)) : List (String × String) :=
  List.insertionSort pairLE m

/-- The change report of `IDRemover.generate_report` (remove_ids.py lines
144-162). -/
structure Report where
  total_changes : Nat
  changes : List (String × String)

/-- `IDRemover.generate_report` (remove_ids.py lines 144-162): the count
is the mapping size and the records are the sorted mapping entries, each
side prefixed with `"/"`. -/
def generate_report (m : List (String × String)) : Report :=
  { total_changes := m.length
    changes := (pySorted m).map (fun p => ("/" ++ p.1, "/" ++ p.2)) }

/-- One iteration of the move loop of `IDRemover.rename_files_and_folders`
(remove_ids.py lines 46-56) on the abstract filesystem: append the `.mdx`
extension to both sides, skip the pair when the source file is absent,
otherwise move the file. -/
def relocStep (fs : List String) (entry : String × String) : List String :=
  let oldFile := entry.1 ++ ".mdx"
  let newFile := entry.2 ++ ".mdx"
  if oldFile ∈ fs then newFile :: fs.erase oldFile else fs

/-- `IDRemover.rename_files_and_folders` (remove_ids.py lines 43-59):
iterate the mapping entries in sorted order. Directory creation and the
empty-directory sweep do not change the set of content files and are not
modelled. -/
def rename_files_and_folders (fs : List String) (m : List (String × String)) : List String :=
  (pySorted m).foldl relocStep fs

/-- The outcome of one full run: the filesystem, the rewritten manifest
and the change report. -/
structure RunResult where
  fs : List String
  docs : Json
  report : Report

/-- `IDRemover.run` (remove_ids.py lines 164-180): build the mapping from
the manifest's `navigation` field, move the files, rewrite the manifest,
and generate the report. -/
def runPipeline (fs : List String) (docs : Json) : Option RunResult := do
  let nav ← topLookup docs "navigation"
  let pages ← extract_all_pages nav
  let mapping := build_path_mapping pages
  let fs' := rename_files_and_folders fs mapping
  let docs' ← update_docs_json mapping docs
  pure { fs := fs', docs := docs', report := generate_report mapping }

/-- A value Python can iterate (`for page in v`): list, string or dict. -/
def isIterable : Json → Bool
  | .str _ => true
  | .arr _ => true
  | .obj _ => true
  | _ => false

/-- A value that is neither a dict nor a list: the walkers treat it as a
bare leaf. -/
def isAtom : Json → Bool
  | .obj _ => false
  | .arr _ => false
  | _ => true

mutual

/-- Well-formedness for the walkers: every object's `pages` value, at any
depth, is iterable. -/
def wfJ : Json → Bool
  | .obj kvs => wfKvs kvs
  | .arr items => wfItems items
  | _ => true

/-- `wfJ` on object entries. -/
def wfKvs : List (String × Json) → Bool
  | [] => true
  | (k, v) :: rest => (if k = "pages" then isIterable v else true) && wfJ v && wfKvs rest

/-- `wfJ` on list elements. -/
def wfItems : List Json → Bool
  | [] => true
  | item :: rest => wfJ item && wfItems rest

end

/-- Whether a value is a JSON list. -/
def isArr : Json → Bool
  | .arr _ => true
  | _ => false

mutual

/-- Every object's `pages` value, at any depth, is a JSON list. -/
def pagesAreLists : Json → Bool
  | .obj kvs => palKvs kvs
  | .arr items => palItems items
  | _ => true

/-- `pagesAreLists` on object entries. -/
def palKvs : List (String × Json) → Bool
  | [] => true
  | (k, v) :: rest => (if k = "pages" then isArr v else true) && pagesAreLists v && palKvs rest

/-- `pagesAreLists` on list elements. -/
def palItems : List Json → Bool
  | [] => true
  | item :: rest => pagesAreLists item && palItems rest

end

/-- `s` occurs as a direct string element of the given list of values. -/
def strDirectElem (s : String) : List Json → Bool
  | [] => false
  | .str t :: rest => decide (t = s) || strDirectElem s rest
  | _ :: rest => strDirectElem s rest

/-- `s` is a direct string element of this value, when it is a list. -/
def strInList (s : String) : Json → Bool
  | .arr items => strDirectElem s items
  | _ => false

mutual

/-- `s` occurs, somewhere in the tree, as a direct element of a list that
is stored under a `pages` key. -/
def inPagesLists (s : String) : Json → Bool
  | .obj kvs => inPagesListsKvs s kvs
  | .arr items => inPagesListsItems s items
  | _ => false

/-- `inPagesLists` on object entries. -/
def inPagesListsKvs (s : String) : List (String × Json) → Bool
  | [] => false
  | (k, v) :: rest =>
      (decide (k = "pages") && strInList s v) || inPagesLists s v || inPagesListsKvs s rest

/-- `inPagesLists` on list elements. -/
def inPagesListsItems (s : String) : List Json → Bool
  | [] => false
  | item :: rest => inPagesLists s item || inPagesListsItems s rest

end

/-! ### Lemmas about splitting and joining paths -/

theorem splitOnSlash_ne_nil (cs : List Char) : splitOnSlash cs ≠ [] := by
  induction cs with
  | nil => simp [splitOnSlash]
  | cons c cs ih =>
    cases h : splitOnSlash cs with
    | nil => exact absurd h ih
    | cons seg segs =>
      have heq : splitOnSlash (c :: cs)
          = if c = '/' then [] :: seg :: segs else (c :: seg) :: segs := by
        simp only [splitOnSlash, h]
      rw [heq]
      by_cases hc : c = '/' <;> simp [hc]

theorem noSlash_of_mem_splitOnSlash (cs : List Char) :
    ∀ seg ∈ splitOnSlash cs, '/' ∉ seg := by
  induction cs with
  | nil =>
    intro seg hseg
    simp only [splitOnSlash, List.mem_singleton] at hseg
    subst hseg
    simp
  | cons c cs ih =>
    intro seg hseg
    cases h : splitOnSlash cs with
    | nil => exact absurd h (splitOnSlash_ne_nil cs)
    | cons s0 segs =>
      have heq : splitOnSlash (c :: cs)
          = if c = '/' then [] :: s0 :: segs else (c :: s0) :: segs := by
        simp only [splitOnSlash, h]
      rw [heq] at hseg
      by_cases hc : c = '/'
      · rw [if_pos hc] at hseg
        rcases List.mem_cons.mp hseg with rfl | hseg2
        · simp
        · exact ih seg (h ▸ hseg2)
      · rw [if_neg hc] at hseg
        rcases List.mem_cons.mp hseg with rfl | hseg2
        · intro hmem
          rcases List.mem_cons.mp hmem with h1 | h2
          · exact hc h1.symm
          · exact ih s0 (h ▸ List.mem_cons_self s0 segs) h2
        · exact ih seg (h ▸ List.mem_cons_of_mem s0 hseg2)

theorem splitOnSlash_no_slash (cs : List Char) (h : '/' ∉ cs) : splitOnSlash cs = [cs] := by
  induction cs with
  | nil => rfl
  | cons c cs ih =>
    have hc : c ≠ '/' := fun e => h (e ▸ List.mem_cons_self c cs)
    have h2 : '/' ∉ cs := fun m => h (List.mem_cons_of_mem c m)
    simp only [splitOnSlash, ih h2]
    rw [if_neg hc]

theorem splitOnSlash_append (s t : List Char) (hs : '/' ∉ s) :
    splitOnSlash (s ++ '/' :: t) = s :: splitOnSlash t := by
  induction s with
  | nil =>
    simp only [List.nil_append, splitOnSlash]
    cases h : splitOnSlash t with
    | nil => exact absurd h (splitOnSlash_ne_nil t)
    | cons seg segs => simp
  | cons c s ih =>
    have hc : c ≠ '/' := fun e => hs (e ▸ List.mem_cons_self c s)
    have hs2 : '/' ∉ s := fun m => hs (List.mem_cons_of_mem c m)
    show splitOnSlash (c :: (s ++ '/' :: t)) = (c :: s) :: splitOnSlash t
    have heq : splitOnSlash (c :: (s ++ '/' :: t))
        = if c = '/' then [] :: s :: splitOnSlash t else (c :: s) :: splitOnSlash t := by
      simp only [splitOnSlash, ih hs2]
    rw [heq, if_neg hc]

theorem joinSlash_cons (s r0 : List Char) (rest : List (List Char)) :
    joinSlash (s :: r0 :: rest) = s ++ '/' :: joinSlash (r0 :: rest) := rfl

theorem splitOnSlash_joinSlash (segs : List (List Char)) (hne : segs ≠ [])
    (hs : ∀ seg ∈ segs, '/' ∉ seg) : splitOnSlash (joinSlash segs) = segs := by
  induction segs with
  | nil => cases hne rfl
  | cons s rest ih =>
    cases rest with
    | nil =>
      simpa [joinSlash] using splitOnSlash_no_slash s (hs s (List.mem_cons_self s []))
    | cons r0 rest' =>
      rw [joinSlash_cons, splitOnSlash_append s _ (hs s (List.mem_cons_self s (r0 :: rest'))),
        ih (by simp) (fun seg h => hs seg (List.mem_cons_of_mem s h))]

theorem joinSlash_filter_split (kept : List (List Char))
    (hs : ∀ seg ∈ kept, '/' ∉ seg)
    (hall : ∀ seg ∈ kept, (!matchesIdPattern seg) = true) :
    joinSlash ((splitOnSlash (joinSlash kept)).filter (fun part => !matchesIdPattern part))
      = joinSlash kept := by
  cases kept with
  | nil => rfl
  | cons a as =>
    rw [splitOnSlash_joinSlash (a :: as) (by simp) hs, List.filter_eq_self.mpr hall]

theorem all_canonical_split_join (kept : List (List Char))
    (hs : ∀ seg ∈ kept, '/' ∉ seg)
    (hall : ∀ seg ∈ kept, (!matchesIdPattern seg) = true) :
    ∀ seg ∈ splitOnSlash (joinSlash kept), (!matchesIdPattern seg) = true := by
  cases kept with
  | nil =>
    intro seg h
    simp only [joinSlash, splitOnSlash, List.mem_singleton] at h
    subst h
    decide
  | cons a as =>
    rw [splitOnSlash_joinSlash (a :: as) (by simp) hs]
    exact hall

theorem pred_of_mem_kept {l : List (List Char)} {s : List Char}
    (hh : s ∈ l.filter (fun part => !matchesIdPattern part)) :
    (!matchesIdPattern s) = true :=
  @List.of_mem_filter _ (fun part => !matchesIdPattern part) _ _ hh

/-- Every output of the canonicalizer is canonical: no segment of
`extract_filename_without_id p` matches the identifier pattern. -/
theorem isCanonical_extract (p : String) :
    isCanonical (extract_filename_without_id p) = true := by
  unfold isCanonical
  rw [List.all_eq_true]
  exact fun seg h =>
    all_canonical_split_join _
      (fun s hh => noSlash_of_mem_splitOnSlash p.data s (List.mem_of_mem_filter hh))
      (fun s hh => pred_of_mem_kept hh) seg h

theorem isCanonical_convert_path (p : String) : isCanonical (convert_path p) = true :=
  isCanonical_extract p

/-- C1: canonicalization is idempotent — splitting on `'/'`, dropping the
identifier segments and rejoining is a function whose second application
changes nothing. -/
theorem C1_canonicalize_idempotent (p : String) :
    extract_filename_without_id (extract_filename_without_id p)
      = extract_filename_without_id p := by
  apply String.ext
  exact joinSlash_filter_split _
    (fun seg h => noSlash_of_mem_splitOnSlash p.data seg (List.mem_of_mem_filter h))
    (fun seg h => pred_of_mem_kept h)

/-! ### The identifier classifier (C2, C9) -/

/-- C2 counterexample: a segment of twenty alphanumeric characters followed
by a single trailing newline is classified as an identifier by the code
(Python's `$` matches just before a final newline), although it is not
purely alphanumeric — refuting the claimed exact characterization. -/
theorem C2_counterexample :
    ¬ (matchesIdPattern "aaaaaaaaaaaaaaaaaaaa\n".data = true ↔
        (20 ≤ "aaaaaaaaaaaaaaaaaaaa\n".data.length ∧
          "aaaaaaaaaaaaaaaaaaaa\n".data.all isAlnumChar = true)) := by
  decide

theorem takeWhile_append_eq (p : Char → Bool) (core rest : List Char)
    (hall : ∀ c ∈ core, p c = true)
    (hrest : ∀ r rs, rest = r :: rs → p r = false) :
    (core ++ rest).takeWhile p = core ∧ (core ++ rest).dropWhile p = rest := by
  induction core with
  | nil =>
    simp only [List.nil_append]
    cases rest with
    | nil => simp
    | cons r rs =>
      have hr := hrest r rs rfl
      simp [List.takeWhile_cons, List.dropWhile_cons, hr]
  | cons c cs ih =>
    have hc := hall c (List.mem_cons_self c cs)
    obtain ⟨h1, h2⟩ := ih (fun x hx => hall x (List.mem_cons_of_mem c hx))
    simp [List.takeWhile_cons, List.dropWhile_cons, hc, h1, h2]

/-- C2 (amended): the per-segment classifier accepts exactly the segments
that decompose as an alphanumeric core of length at least 20 followed by
either nothing or one trailing newline character. -/
theorem C2_identifier_classifier_amended (seg : List Char) :
    matchesIdPattern seg = true ↔
      ∃ core rest, seg = core ++ rest ∧ 20 ≤ core.length ∧
        core.all isAlnumChar = true ∧ (rest = [] ∨ rest = ['\n']) := by
  constructor
  · intro h
    simp only [matchesIdPattern, Bool.and_eq_true, Bool.or_eq_true,
      decide_eq_true_eq] at h
    obtain ⟨hlen, hrest⟩ := h
    refine ⟨seg.takeWhile isAlnumChar, seg.dropWhile isAlnumChar,
      (List.takeWhile_append_dropWhile isAlnumChar seg).symm, hlen, ?_, hrest⟩
    rw [List.all_eq_true]
    exact fun x hx => List.mem_takeWhile_imp hx
  · rintro ⟨core, rest, rfl, hlen, hall, hrest⟩
    have hallf : ∀ c ∈ core, isAlnumChar c = true := List.all_eq_true.mp hall
    have hrestf : ∀ r rs, rest = r :: rs → isAlnumChar r = false := by
      rcases hrest with rfl | rfl
      · intro r rs h
        cases h
      · intro r rs h
        injection h with h1 h2
        subst h1
        decide
    obtain ⟨ht, hd⟩ := takeWhile_append_eq isAlnumChar core rest hallf hrestf
    simp only [matchesIdPattern, ht, hd, Bool.and_eq_true, Bool.or_eq_true,
      decide_eq_true_eq]
    exact ⟨hlen, hrest⟩

/-- C9: when every slash-separated segment of a path matches the identifier
pattern, the canonicalizer returns the empty string. -/
theorem C9_all_identifier_empty (p : String)
    (h : (splitOnSlash p.data).all matchesIdPattern = true) :
    extract_filename_without_id p = "" := by
  apply String.ext
  show joinSlash ((splitOnSlash p.data).filter (fun part => !matchesIdPattern part)) = "".data
  rw [List.filter_eq_nil_iff.mpr (fun a ha => by simp [List.all_eq_true.mp h a ha])]
  rfl

/-- C9 witness: a two-segment path made of identifier segments only. -/
theorem C9_all_identifier_empty_witness :
    ((splitOnSlash "AAAAAAAAAAAAAAAAAAAAAA/si84FeKzFRrGL6u53ckCQU".data).all
        matchesIdPattern = true) ∧
      extract_filename_without_id "AAAAAAAAAAAAAAAAAAAAAA/si84FeKzFRrGL6u53ckCQU" = "" :=
  ⟨by decide, C9_all_identifier_empty _ (by decide)⟩

/-! ### The rename mapping (C7) -/

theorem mem_dictInsert {acc : List (String × String)} {k v : String} {e : String × String}
    (h : e ∈ dictInsert acc k v) : e = (k, v) ∨ e ∈ acc := by
  unfold dictInsert at h
  split at h
  · obtain ⟨p, hp, he⟩ := List.mem_map.mp h
    by_cases hpk : p.1 = k
    · rw [if_pos hpk] at he
      exact .inl he.symm
    · rw [if_neg hpk] at he
      exact .inr (he ▸ hp)
  · rcases List.mem_append.mp h with h1 | h2
    · exact .inr h1
    · exact .inl (List.mem_singleton.mp h2)

theorem mem_buildStep {acc : List (String × String)} {p : String} {e : String × String}
    (h : e ∈ buildStep acc p) :
    (e = (p, convert_path p) ∧ convert_path p ≠ p) ∨ e ∈ acc := by
  simp only [buildStep] at h
  split at h
  · rename_i hne
    rcases mem_dictInsert h with h1 | h2
    · exact .inl ⟨h1, Ne.symm hne⟩
    · exact .inr h2
  · exact .inr h

theorem foldl_buildStep_good (pages : List String) :
    ∀ acc : List (String × String),
      (∀ e ∈ acc, e.2 = convert_path e.1 ∧ e.2 ≠ e.1) →
      ∀ e ∈ pages.foldl buildStep acc, e.2 = convert_path e.1 ∧ e.2 ≠ e.1 := by
  induction pages with
  | nil => exact fun acc hacc e he => hacc e he
  | cons p ps ih =>
    intro acc hacc e he
    rw [List.foldl_cons] at he
    refine ih (buildStep acc p) ?_ e he
    intro e' he'
    rcases mem_buildStep he' with ⟨rfl, hne⟩ | hmem
    · exact ⟨rfl, hne⟩
    · exact hacc e' hmem

theorem build_path_mapping_good (pages : List String) :
    ∀ e ∈ build_path_mapping pages, e.2 = convert_path e.1 ∧ e.2 ≠ e.1 :=
  foldl_buildStep_good pages [] (by simp)

theorem keys_dictInsert_self (acc : List (String × String)) (k v : String) :
    k ∈ (dictInsert acc k v).map Prod.fst := by
  unfold dictInsert
  split
  · rename_i hany
    rw [List.any_eq_true] at hany
    obtain ⟨p, hp, hpk⟩ := hany
    have hpk2 := of_decide_eq_true hpk
    apply List.mem_map.mpr
    exact ⟨if p.1 = k then (k, v) else p, List.mem_map_of_mem _ hp, by simp [hpk2]⟩
  · simp

theorem keys_dictInsert_mono {acc : List (String × String)} {k' : String} (k v : String)
    (h : k' ∈ acc.map Prod.fst) : k' ∈ (dictInsert acc k v).map Prod.fst := by
  unfold dictInsert
  obtain ⟨p, hp, hpk⟩ := List.mem_map.mp h
  split
  · apply List.mem_map.mpr
    refine ⟨if p.1 = k then (k, v) else p, List.mem_map_of_mem _ hp, ?_⟩
    by_cases hc : p.1 = k
    · rw [if_pos hc]
      exact hc.symm.trans hpk
    · rw [if_neg hc]
      exact hpk
  · rw [List.map_append]
    exact List.mem_append.mpr (.inl h)

theorem keys_buildStep_mono {acc : List (String × String)} {k' : String} (p : String)
    (h : k' ∈ acc.map Prod.fst) : k' ∈ (buildStep acc p).map Prod.fst := by
  simp only [buildStep]
  split
  · exact keys_dictInsert_mono p (convert_path p) h
  · exact h

theorem keys_foldl_buildStep_mono (ps : List String) :
    ∀ acc : List (String × String), ∀ k' : String,
      k' ∈ acc.map Prod.fst → k' ∈ (ps.foldl buildStep acc).map Prod.fst := by
  induction ps with
  | nil => exact fun acc k' h => h
  | cons p ps ih =>
    intro acc k' h
    rw [List.foldl_cons]
    exact ih (buildStep acc p) k' (keys_buildStep_mono p h)

theorem key_in_foldl (pages : List String) :
    ∀ acc : List (String × String), ∀ t ∈ pages, convert_path t ≠ t →
      t ∈ (pages.foldl buildStep acc).map Prod.fst := by
  induction pages with
  | nil =>
    intro acc t ht
    cases ht
  | cons p ps ih =>
    intro acc t ht hne
    rw [List.foldl_cons]
    rcases List.mem_cons.mp ht with rfl | hmem
    · apply keys_foldl_buildStep_mono
      simp only [buildStep]
      rw [if_pos (Ne.symm hne)]
      exact keys_dictInsert_self acc t (convert_path t)
    · exact ih (buildStep acc p) t hmem hne

theorem key_in_build (pages : List String) (t : String) (ht : t ∈ pages)
    (hne : convert_path t ≠ t) : t ∈ (build_path_mapping pages).map Prod.fst :=
  key_in_foldl pages [] t ht hne

theorem dictGet_of_key_good {m : List (String × String)} {t : String}
    (hgood : ∀ e ∈ m, e.2 = convert_path e.1)
    (hmem : t ∈ m.map Prod.fst) : dictGet m t = convert_path t := by
  induction m with
  | nil => simp at hmem
  | cons e rest ih =>
    obtain ⟨k', v'⟩ := e
    by_cases hk : k' = t
    · subst hk
      have hv := hgood (k', v') (List.mem_cons_self _ _)
      simp only at hv
      simp only [dictGet, if_pos rfl]
      exact hv
    · simp only [dictGet, if_neg hk]
      apply ih (fun e he => hgood e (List.mem_cons_of_mem _ he))
      rcases List.mem_map.mp hmem with ⟨p, hp, hpt⟩
      rcases List.mem_cons.mp hp with rfl | hmem2
      · exact absurd hpt hk
      · exact List.mem_map.mpr ⟨p, hmem2, hpt⟩

theorem dictGet_not_key {m : List (String × String)} {t : String}
    (h : t ∉ m.map Prod.fst) : dictGet m t = t := by
  induction m with
  | nil => rfl
  | cons e rest ih =>
    obtain ⟨k', v'⟩ := e
    have hk : k' ≠ t := fun e2 => h (List.mem_map.mpr ⟨(k', v'), List.mem_cons_self _ _, e2⟩)
    simp only [dictGet, if_neg hk]
    exact ih (fun hm => h (by
      rcases List.mem_map.mp hm with ⟨p, hp, hpt⟩
      exact List.mem_map.mpr ⟨p, List.mem_cons_of_mem _ hp, hpt⟩))

/-- Looking up any collected page in the mapping built from the page list
gives its canonical form: pages the canonicalizer does not change are
absent from the mapping (and returned unchanged), changed pages map to
their canonical form. -/
theorem dictGet_build (pages : List String) (t : String) (ht : t ∈ pages) :
    dictGet (build_path_mapping pages) t = convert_path t := by
  by_cases hc : convert_path t = t
  · have hnk : t ∉ (build_path_mapping pages).map Prod.fst := by
      intro hk
      obtain ⟨e, he, hfst⟩ := List.mem_map.mp hk
      obtain ⟨hg1, hg2⟩ := build_path_mapping_good pages e he
      rw [hg1, hfst] at hg2
      exact hg2 hc
    rw [dictGet_not_key hnk, hc]
  · exact dictGet_of_key_good
      (fun e he => (build_path_mapping_good pages e he).1)
      (key_in_build pages t ht hc)

/-- C7: the rename mapping contains no identity entries — every key maps
to a value different from itself, and a path equal to its canonical form
never appears as a key. -/
theorem C7_no_identity_entries (pages : List String) (k v : String)
    (h : (k, v) ∈ build_path_mapping pages) : v ≠ k ∧ convert_path k ≠ k := by
  have hg := build_path_mapping_good pages (k, v) h
  simp only at hg
  exact ⟨hg.2, hg.1 ▸ hg.2⟩

/-- C7 witness: a concrete mapping entry produced from a path with one
identifier segment. -/
theorem C7_no_identity_entries_witness :
    (("guide/si84FeKzFRrGL6u53ckCQU/setup", "guide/setup") ∈
        build_path_mapping ["guide/si84FeKzFRrGL6u53ckCQU/setup"]) ∧
      ("guide/setup" ≠ "guide/si84FeKzFRrGL6u53ckCQU/setup" ∧
        convert_path "guide/si84FeKzFRrGL6u53ckCQU/setup"
          ≠ "guide/si84FeKzFRrGL6u53ckCQU/setup") :=
  ⟨by decide,
    C7_no_identity_entries ["guide/si84FeKzFRrGL6u53ckCQU/setup"]
      "guide/si84FeKzFRrGL6u53ckCQU/setup" "guide/setup" (by decide)⟩

/-! ### The sort order and the change report (C6) -/

theorem strLtB_cons_lt {c d : Char} (h : c < d) (cs ds : List Char) :
    strLtB (c :: cs) (d :: ds) = true := by
  simp only [strLtB, decide_eq_true h, Bool.true_or]

theorem strLtB_cons_eq (c : Char) (cs ds : List Char) :
    strLtB (c :: cs) (c :: ds) = strLtB cs ds := by
  simp [strLtB, lt_irrefl c]

theorem strLtB_trichot (x y : List Char) :
    strLtB x y = true ∨ strLtB y x = true ∨ x = y := by
  induction x generalizing y with
  | nil =>
    cases y with
    | nil => exact .inr (.inr rfl)
    | cons d ds => exact .inl rfl
  | cons c cs ih =>
    cases y with
    | nil => exact .inr (.inl rfl)
    | cons d ds =>
      rcases lt_trichotomy c d with h | h | h
      · exact .inl (strLtB_cons_lt h cs ds)
      · subst h
        rcases ih ds with h2 | h2 | h2
        · exact .inl (by rw [strLtB_cons_eq]; exact h2)
        · exact .inr (.inl (by rw [strLtB_cons_eq]; exact h2))
        · exact .inr (.inr (by rw [h2]))
      · exact .inr (.inl (strLtB_cons_lt h ds cs))

theorem strLtB_trans {x y z : List Char} (h1 : strLtB x y = true)
    (h2 : strLtB y z = true) : strLtB x z = true := by
  induction x generalizing y z with
  | nil =>
    cases z with
    | nil =>
      cases y with
      | nil => exact h2
      | cons d ds => simp [strLtB] at h2
    | cons e es => rfl
  | cons c cs ih =>
    cases y with
    | nil => simp [strLtB] at h1
    | cons d ds =>
      cases z with
      | nil => simp [strLtB] at h2
      | cons e es =>
        simp only [strLtB, Bool.or_eq_true, Bool.and_eq_true, decide_eq_true_eq] at h1 h2 ⊢
        rcases h1 with h1 | ⟨rfl, h1⟩
        · rcases h2 with h2 | ⟨rfl, h2⟩
          · exact .inl (lt_trans h1 h2)
          · exact .inl h1
        · rcases h2 with h2 | ⟨rfl, h2⟩
          · exact .inl h2
          · exact .inr ⟨rfl, ih h1 h2⟩

theorem strLtB_irrefl (x : List Char) : strLtB x x = false := by
  induction x with
  | nil => rfl
  | cons c cs ih => rw [strLtB_cons_eq]; exact ih

theorem pyPairLE_iff (a b : String × String) :
    pyPairLE a b = true ↔
      strLtB a.1.data b.1.data = true ∨
        (a.1 = b.1 ∧ (strLtB a.2.data b.2.data = true ∨ a.2 = b.2)) := by
  simp [pyPairLE, Bool.or_eq_true, Bool.and_eq_true, decide_eq_true_eq]

instance : IsTotal (String × String) pairLE := by
  constructor
  intro a b
  unfold pairLE
  rw [pyPairLE_iff, pyPairLE_iff]
  rcases strLtB_trichot a.1.data b.1.data with h | h | h
  · exact .inl (.inl h)
  · exact .inr (.inl h)
  · have hab : a.1 = b.1 := String.ext h
    rcases strLtB_trichot a.2.data b.2.data with h2 | h2 | h2
    · exact .inl (.inr ⟨hab, .inl h2⟩)
    · exact .inr (.inr ⟨hab.symm, .inl h2⟩)
    · exact .inl (.inr ⟨hab, .inr (String.ext h2)⟩)

instance : IsTrans (String × String) pairLE := by
  constructor
  intro a b c h1 h2
  unfold pairLE at h1 h2 ⊢
  rw [pyPairLE_iff] at h1 h2 ⊢
  rcases h1 with h1 | ⟨he1, h1⟩
  · rcases h2 with h2 | ⟨he2, h2⟩
    · exact .inl (strLtB_trans h1 h2)
    · rw [← he2]
      exact .inl h1
  · rcases h2 with h2 | ⟨he2, h2⟩
    · rw [he1]
      exact .inl h2
    · refine .inr ⟨he1.trans he2, ?_⟩
      rcases h1 with h1 | h1
      · rcases h2 with h2 | h2
        · exact .inl (strLtB_trans h1 h2)
        · rw [← h2]
          exact .inl h1
      · rcases h2 with h2 | h2
        · rw [h1]
          exact .inl h2
        · exact .inr (h1.trans h2)

theorem pairLE_ne_lt {a b : String × String} (hle : pairLE a b) (hne : a.1 ≠ b.1) :
    strLtB a.1.data b.1.data = true := by
  rcases (pyPairLE_iff a b).mp hle with h | ⟨h, -⟩
  · exact h
  · exact absurd h hne

/-- C6: the generated report counts exactly the mapping entries, contains
exactly one `/`-prefixed record per entry, and lists the records sorted in
ascending lexicographic order of the old path — the same sorted order the
relocation loop folds over. -/
theorem C6_report_shape (m : List (String × String)) (fs : List String)
    (hnd : (m.map Prod.fst).Nodup) :
    (generate_report m).total_changes = m.length ∧
    (generate_report m).changes.Perm (m.map (fun p => ("/" ++ p.1, "/" ++ p.2))) ∧
    (pySorted m).Pairwise (fun p q => strLtB p.1.data q.1.data = true) ∧
    (generate_report m).changes.Pairwise (fun a b => strLtB a.1.data b.1.data = true) ∧
    (generate_report m).changes = (pySorted m).map (fun p => ("/" ++ p.1, "/" ++ p.2)) ∧
    rename_files_and_folders fs m = (pySorted m).foldl relocStep fs := by
  have hperm : (pySorted m).Perm m := List.perm_insertionSort pairLE m
  have hsorted : List.Sorted pairLE (pySorted m) := List.sorted_insertionSort pairLE m
  have hnd2 : ((pySorted m).map Prod.fst).Nodup :=
    ((hperm.map Prod.fst).nodup_iff).mpr hnd
  have hne : (pySorted m).Pairwise (fun p q => p.1 ≠ q.1) := by
    rw [List.Nodup, List.pairwise_map] at hnd2
    exact hnd2
  have hkey : (pySorted m).Pairwise (fun p q => strLtB p.1.data q.1.data = true) :=
    (hsorted.and hne).imp (fun h => pairLE_ne_lt h.1 h.2)
  refine ⟨rfl, ?_, hkey, ?_, rfl, rfl⟩
  · exact hperm.map (fun p => ("/" ++ p.1, "/" ++ p.2))
  · show ((pySorted m).map (fun p => ("/" ++ p.1, "/" ++ p.2))).Pairwise
      (fun a b => strLtB a.1.data b.1.data = true)
    rw [List.pairwise_map]
    refine hkey.imp (fun {p q} h => ?_)
    have hd : ∀ s : String, ("/" ++ s).data = '/' :: s.data := by
      intro s
      rw [String.data_append]
      rfl
    simp only [hd]
    rw [strLtB_cons_eq]
    exact h

/-- C6 witness: a concrete two-entry mapping given out of order. -/
theorem C6_report_shape_witness :
    (generate_report [("b", "y"), ("a", "x")]).total_changes
        = [("b", "y"), ("a", "x")].length ∧
      (generate_report [("b", "y"), ("a", "x")]).changes.Perm
        ([("b", "y"), ("a", "x")].map (fun p => ("/" ++ p.1, "/" ++ p.2))) ∧
      (pySorted [("b", "y"), ("a", "x")]).Pairwise
        (fun p q => strLtB p.1.data q.1.data = true) ∧
      (generate_report [("b", "y"), ("a", "x")]).changes.Pairwise
        (fun a b => strLtB a.1.data b.1.data = true) ∧
      (generate_report [("b", "y"), ("a", "x")]).changes
        = (pySorted [("b", "y"), ("a", "x")]).map (fun p => ("/" ++ p.1, "/" ++ p.2)) ∧
      rename_files_and_folders ["a.mdx"] [("b", "y"), ("a", "x")]
        = (pySorted [("b", "y"), ("a", "x")]).foldl relocStep ["a.mdx"] :=
  C6_report_shape [("b", "y"), ("a", "x")] ["a.mdx"] (by decide)

/-! ### Correspondence of the read and write walkers -/

theorem extractPageItems_map_str {α : Type} (f : α → String) (l : List α) :
    extractPageItems (l.map fun a => Json.str (f a)) = some (l.map f) := by
  induction l with
  | nil => rfl
  | cons a l ih => simp [extractPageItems, ih]

mutual

/-- After a successful rewrite, the collected leaves of the result are
exactly the collected leaves of the input, each sent through the mapping
lookup. -/
theorem corrJ (m : List (String × String)) (j j' : Json)
    (h : update_nav_structure m j = some j') :
    ∃ L, extract_all_pages j = some L ∧
      extract_all_pages j' = some (L.map (dictGet m)) := by
  match j with
  | .obj kvs =>
    simp only [update_nav_structure, Option.bind_eq_bind, Option.bind_eq_some,
      Option.pure_def, Option.some.injEq] at h
    obtain ⟨kvs0, hk, heq⟩ := h
    subst heq
    obtain ⟨A, B, hA, hB, hA2, hB2⟩ := corrKvs m kvs kvs0 hk
    exact ⟨A ++ B, by simp [extract_all_pages, hA, hB],
      by simp [extract_all_pages, hA2, hB2]⟩
  | .arr items =>
    simp only [update_nav_structure, Option.bind_eq_bind, Option.bind_eq_some,
      Option.pure_def, Option.some.injEq] at h
    obtain ⟨items0, hi, heq⟩ := h
    subst heq
    obtain ⟨L, hL, hL2⟩ := corrItemsL m items items0 hi
    exact ⟨L, by simp [extract_all_pages, hL], by simp [extract_all_pages, hL2]⟩
  | .str s =>
    simp only [update_nav_structure, Option.pure_def, Option.some.injEq] at h
    subst h
    exact ⟨[], rfl, rfl⟩
  | .num n =>
    simp only [update_nav_structure, Option.pure_def, Option.some.injEq] at h
    subst h
    exact ⟨[], rfl, rfl⟩
  | .bool b =>
    simp only [update_nav_structure, Option.pure_def, Option.some.injEq] at h
    subst h
    exact ⟨[], rfl, rfl⟩
  | .null =>
    simp only [update_nav_structure, Option.pure_def, Option.some.injEq] at h
    subst h
    exact ⟨[], rfl, rfl⟩

theorem corrKvs (m : List (String × String)) (kvs kvs' : List (String × Json))
    (h : updateKvs m kvs = some kvs') :
    ∃ A B, extractPagesPart kvs = some A ∧ extractOthers kvs = some B ∧
      extractPagesPart kvs' = some (A.map (dictGet m)) ∧
      extractOthers kvs' = some (B.map (dictGet m)) := by
  match kvs with
  | [] =>
    simp only [updateKvs, Option.pure_def, Option.some.injEq] at h
    subst h
    exact ⟨[], [], rfl, rfl, rfl, rfl⟩
  | (k, v) :: rest =>
    by_cases hk : k = "pages"
    · simp only [updateKvs, hk, if_pos, Option.bind_eq_bind, Option.bind_eq_some,
        Option.pure_def, Option.some.injEq] at h
      obtain ⟨v0, hv, rest0, hrest, heq⟩ := h
      subst heq
      obtain ⟨L, hL, hL2⟩ := corrPv m v v0 hv
      obtain ⟨A, B, hA, hB, hA2, hB2⟩ := corrKvs m rest rest0 hrest
      exact ⟨L, B, by simp [extractPagesPart, hk, hL],
        by simp [extractOthers, hk, hB],
        by simp [extractPagesPart, hk, hL2],
        by simp [extractOthers, hk, hB2]⟩
    · simp only [updateKvs, hk, if_neg, if_false, Option.bind_eq_bind,
        Option.bind_eq_some, Option.pure_def, Option.some.injEq] at h
      obtain ⟨v0, hv, rest0, hrest, heq⟩ := h
      subst heq
      obtain ⟨S, hS, hS2⟩ := corrJ m v v0 hv
      obtain ⟨A, B, hA, hB, hA2, hB2⟩ := corrKvs m rest rest0 hrest
      exact ⟨A, S ++ B, by simp [extractPagesPart, hk, hA],
        by simp [extractOthers, hk, hS, hB],
        by simp [extractPagesPart, hk, hA2],
        by simp [extractOthers, hk, hS2, hB2]⟩

theorem corrPv (m : List (String × String)) (v v' : Json)
    (h : updatePagesValue m v = some v') :
    ∃ L, extractPagesValue v = some L ∧
      extractPagesValue v' = some (L.map (dictGet m)) := by
  match v with
  | .arr items =>
    simp only [updatePagesValue, Option.bind_eq_bind, Option.bind_eq_some,
      Option.pure_def, Option.some.injEq] at h
    obtain ⟨items0, hi, heq⟩ := h
    subst heq
    obtain ⟨L, hL, hL2⟩ := corrItemsP m items items0 hi
    exact ⟨L, by simp [extractPagesValue, hL], by simp [extractPagesValue, hL2]⟩
  | .str s =>
    simp only [updatePagesValue, Option.pure_def, Option.some.injEq] at h
    subst h
    refine ⟨s.data.map fun c => String.mk [c], rfl, ?_⟩
    show extractPageItems (s.data.map fun c => Json.str (dictGet m (String.mk [c])))
      = some ((s.data.map fun c => String.mk [c]).map (dictGet m))
    rw [extractPageItems_map_str (fun c => dictGet m (String.mk [c])) s.data,
      List.map_map]
    rfl
  | .obj kvs =>
    simp only [updatePagesValue, Option.pure_def, Option.some.injEq] at h
    subst h
    refine ⟨kvs.map Prod.fst, rfl, ?_⟩
    show extractPageItems (kvs.map fun kv => Json.str (dictGet m kv.1))
      = some ((kvs.map Prod.fst).map (dictGet m))
    rw [extractPageItems_map_str (fun kv => dictGet m kv.1) kvs, List.map_map]
    rfl
  | .num n => simp [updatePagesValue] at h
  | .bool b => simp [updatePagesValue] at h
  | .null => simp [updatePagesValue] at h

theorem corrItemsP (m : List (String × String)) (items items' : List Json)
    (h : updateItems m items = some items') :
    ∃ L, extractPageItems items = some L ∧
      extractPageItems items' = some (L.map (dictGet m)) := by
  match items with
  | [] =>
    simp only [updateItems, Option.pure_def, Option.some.injEq] at h
    subst h
    exact ⟨[], rfl, rfl⟩
  | item :: rest =>
    match item with
    | .str s =>
      simp only [updateItems, Option.bind_eq_bind, Option.bind_eq_some, Option.pure_def,
        Option.some_bind, Option.some.injEq] at h
      obtain ⟨rest0, hrest, heq⟩ := h
      subst heq
      obtain ⟨T, hT, hT2⟩ := corrItemsP m rest rest0 hrest
      exact ⟨s :: T, by simp [extractPageItems, hT],
        by simp [extractPageItems, hT2]⟩
    | .obj kvs =>
      simp only [updateItems, Option.bind_eq_bind, Option.bind_eq_some, Option.pure_def,
        Option.some.injEq] at h
      obtain ⟨item0, hitem, rest0, hrest, heq⟩ := h
      subst heq
      obtain ⟨T, hT, hT2⟩ := corrItemsP m rest rest0 hrest
      obtain ⟨S, hS, hS2⟩ := corrJ m (.obj kvs) item0 hitem
      obtain ⟨kvs0, hkv, heq2⟩ : ∃ kvs0, updateKvs m kvs = some kvs0 ∧ item0 = .obj kvs0 := by
        simp only [update_nav_structure, Option.bind_eq_bind, Option.bind_eq_some,
          Option.pure_def, Option.some.injEq] at hitem
        obtain ⟨kvs0, hkv, heq2⟩ := hitem
        exact ⟨kvs0, hkv, heq2.symm⟩
      subst heq2
      exact ⟨S ++ T, by simp [extractPageItems, hS, hT],
        by simp [extractPageItems, hS2, hT2]⟩
    | .arr l =>
      simp only [updateItems, Option.bind_eq_bind, Option.bind_eq_some, Option.pure_def,
        Option.some.injEq] at h
      obtain ⟨item0, hitem, rest0, hrest, heq⟩ := h
      subst heq
      obtain ⟨T, hT, hT2⟩ := corrItemsP m rest rest0 hrest
      obtain ⟨l0, hl0, heq2⟩ : ∃ l0, updateItems m l = some l0 ∧ item0 = .arr l0 := by
        simp only [update_nav_structure, Option.bind_eq_bind, Option.bind_eq_some,
          Option.pure_def, Option.some.injEq] at hitem
        obtain ⟨l0, hl0, heq2⟩ := hitem
        exact ⟨l0, hl0, heq2.symm⟩
      subst heq2
      exact ⟨T, by simp [extractPageItems, hT], by simp [extractPageItems, hT2]⟩
    | .num n =>
      simp only [updateItems, update_nav_structure, Option.bind_eq_bind,
        Option.bind_eq_some, Option.pure_def, Option.some_bind, Option.some.injEq] at h
      obtain ⟨rest0, hrest, heq⟩ := h
      subst heq
      obtain ⟨T, hT, hT2⟩ := corrItemsP m rest rest0 hrest
      exact ⟨T, by simp [extractPageItems, hT], by simp [extractPageItems, hT2]⟩
    | .bool b =>
      simp only [updateItems, update_nav_structure, Option.bind_eq_bind,
        Option.bind_eq_some, Option.pure_def, Option.some_bind, Option.some.injEq] at h
      obtain ⟨rest0, hrest, heq⟩ := h
      subst heq
      obtain ⟨T, hT, hT2⟩ := corrItemsP m rest rest0 hrest
      exact ⟨T, by simp [extractPageItems, hT], by simp [extractPageItems, hT2]⟩
    | .null =>
      simp only [updateItems, update_nav_structure, Option.bind_eq_bind,
        Option.bind_eq_some, Option.pure_def, Option.some_bind, Option.some.injEq] at h
      obtain ⟨rest0, hrest, heq⟩ := h
      subst heq
      obtain ⟨T, hT, hT2⟩ := corrItemsP m rest rest0 hrest
      exact ⟨T, by simp [extractPageItems, hT], by simp [extractPageItems, hT2]⟩

theorem corrItemsL (m : List (String × String)) (items items' : List Json)
    (h : updateItems m items = some items') :
    ∃ L, extractList items = some L ∧
      extractList items' = some (L.map (dictGet m)) := by
  match items with
  | [] =>
    simp only [updateItems, Option.pure_def, Option.some.injEq] at h
    subst h
    exact ⟨[], rfl, rfl⟩
  | item :: rest =>
    match item with
    | .str s =>
      simp only [updateItems, Option.bind_eq_bind, Option.bind_eq_some, Option.pure_def,
        Option.some_bind, Option.some.injEq] at h
      obtain ⟨rest0, hrest, heq⟩ := h
      subst heq
      obtain ⟨T, hT, hT2⟩ := corrItemsL m rest rest0 hrest
      exact ⟨[] ++ T, by simp [extractList, extract_all_pages, hT],
        by simp [extractList, extract_all_pages, hT2]⟩
    | .obj kvs =>
      simp only [updateItems, Option.bind_eq_bind, Option.bind_eq_some, Option.pure_def,
        Option.some.injEq] at h
      obtain ⟨item0, hitem, rest0, hrest, heq⟩ := h
      subst heq
      obtain ⟨T, hT, hT2⟩ := corrItemsL m rest rest0 hrest
      obtain ⟨S, hS, hS2⟩ := corrJ m (.obj kvs) item0 hitem
      exact ⟨S ++ T, by simp [extractList, hS, hT],
        by simp [extractList, hS2, hT2]⟩
    | .arr l =>
      simp only [updateItems, Option.bind_eq_bind, Option.bind_eq_some, Option.pure_def,
        Option.some.injEq] at h
      obtain ⟨item0, hitem, rest0, hrest, heq⟩ := h
      subst heq
      obtain ⟨T, hT, hT2⟩ := corrItemsL m rest rest0 hrest
      obtain ⟨S, hS, hS2⟩ := corrJ m (.arr l) item0 hitem
      exact ⟨S ++ T, by simp [extractList, hS, hT],
        by simp [extractList, hS2, hT2]⟩
    | .num n =>
      simp only [updateItems, Option.bind_eq_bind, Option.bind_eq_some, Option.pure_def,
        Option.some.injEq] at h
      obtain ⟨item0, hitem, rest0, hrest, heq⟩ := h
      subst heq
      obtain ⟨T, hT, hT2⟩ := corrItemsL m rest rest0 hrest
      obtain ⟨S, hS, hS2⟩ := corrJ m (.num n) item0 hitem
      exact ⟨S ++ T, by simp [extractList, hS, hT],
        by simp [extractList, hS2, hT2]⟩
    | .bool b =>
      simp only [updateItems, Option.bind_eq_bind, Option.bind_eq_some, Option.pure_def,
        Option.some.injEq] at h
      obtain ⟨item0, hitem, rest0, hrest, heq⟩ := h
      subst heq
      obtain ⟨T, hT, hT2⟩ := corrItemsL m rest rest0 hrest
      obtain ⟨S, hS, hS2⟩ := corrJ m (.bool b) item0 hitem
      exact ⟨S ++ T, by simp [extractList, hS, hT],
        by simp [extractList, hS2, hT2]⟩
    | .null =>
      simp only [updateItems, Option.bind_eq_bind, Option.bind_eq_some, Option.pure_def,
        Option.some.injEq] at h
      obtain ⟨item0, hitem, rest0, hrest, heq⟩ := h
      subst heq
      obtain ⟨T, hT, hT2⟩ := corrItemsL m rest rest0 hrest
      obtain ⟨S, hS, hS2⟩ := corrJ m .null item0 hitem
      exact ⟨S ++ T, by simp [extractList, hS, hT],
        by simp [extractList, hS2, hT2]⟩

end

/-! ### The rewrite applied with the mapping built from the same tree (C3, C5) -/

/-- C3: rewriting a manifest tree with the mapping built from its own
collected pages yields a tree all of whose collected leaves are canonical:
no collected string still contains an identifier segment. -/
theorem C3_rewritten_leaves_canonical (M : Json) (P : List String) (M' : Json)
    (L : List String)
    (h1 : extract_all_pages M = some P)
    (h2 : update_nav_structure (build_path_mapping P) M = some M')
    (h3 : extract_all_pages M' = some L) :
    ∀ s ∈ L, isCanonical s = true := by
  obtain ⟨L0, hx, hx2⟩ := corrJ (build_path_mapping P) M M' h2
  rw [h1] at hx
  injection hx with hx
  subst hx
  rw [h3] at hx2
  injection hx2 with hx2
  intro s hs
  rw [hx2] at hs
  obtain ⟨t, ht, rfl⟩ := List.mem_map.mp hs
  rw [dictGet_build P t ht]
  exact isCanonical_convert_path t

/-- C5: the manifest rewrite depends only on the tree and the mapping, not
on the filesystem — the docs and report components of a full run are the
same for any two filesystem states, and in every successful run every
collected leaf of the rewritten navigation is the mapping lookup of the
corresponding original leaf, whether or not the backing file existed. -/
theorem C5_rewrite_fs_independent (fs1 fs2 : List String) (docs : Json) :
    Option.map (fun r => (r.docs, r.report)) (runPipeline fs1 docs)
      = Option.map (fun r => (r.docs, r.report)) (runPipeline fs2 docs) ∧
    (∀ r kvs, runPipeline fs1 docs = some r → docs = .obj kvs →
      ∃ nav pages nav',
        objLookup kvs "navigation" = some nav ∧
        extract_all_pages nav = some pages ∧
        update_nav_structure (build_path_mapping pages) nav = some nav' ∧
        r.docs = .obj (objSet kvs "navigation" nav') ∧
        extract_all_pages nav'
          = some (pages.map (dictGet (build_path_mapping pages)))) := by
  constructor
  · cases hnav : topLookup docs "navigation" with
    | none => simp [runPipeline, hnav]
    | some nav =>
      cases hp : extract_all_pages nav with
      | none => simp [runPipeline, hnav, hp]
      | some pages =>
        cases hd : update_docs_json (build_path_mapping pages) docs with
        | none => simp [runPipeline, hnav, hp, hd]
        | some docs2 => simp [runPipeline, hnav, hp, hd]
  · intro r kvs hr hdocs
    subst hdocs
    simp only [runPipeline, topLookup, Option.bind_eq_bind, Option.bind_eq_some,
      Option.pure_def, Option.some.injEq] at hr
    obtain ⟨nav, hnav, pages, hpages, docs2, hdocs2, hre⟩ := hr
    simp only [update_docs_json, Option.bind_eq_bind, Option.bind_eq_some,
      Option.pure_def, Option.some.injEq] at hdocs2
    obtain ⟨nav2, hnav2, nav', hnav', heq⟩ := hdocs2
    rw [hnav] at hnav2
    injection hnav2 with hnav2
    subst hnav2
    obtain ⟨L, hL, hL2⟩ := corrJ (build_path_mapping pages) nav nav' hnav'
    rw [hpages] at hL
    injection hL with hL
    subst hL
    refine ⟨nav, pages, nav', hnav, hpages, hnav', ?_, hL2⟩
    rw [← hre, ← heq]

/-- C3 witness: a two-page manifest with one identifier-polluted path. -/
theorem C3_rewritten_leaves_canonical_witness :
    isCanonical "guide/setup" = true :=
  C3_rewritten_leaves_canonical
    (.obj [("pages", .arr [.str "intro", .str "guide/si84FeKzFRrGL6u53ckCQU/setup"])])
    ["intro", "guide/si84FeKzFRrGL6u53ckCQU/setup"]
    (.obj [("pages", .arr [.str "intro", .str "guide/setup"])])
    ["intro", "guide/setup"]
    rfl rfl rfl "guide/setup" (by decide)

/-- C5 witness: the same manifest run once with the backing file present
and once with an empty filesystem. -/
theorem C5_rewrite_fs_independent_witness :
    (Option.map (fun r => (r.docs, r.report))
        (runPipeline ["guide/si84FeKzFRrGL6u53ckCQU/setup.mdx"]
          (.obj [("navigation",
            .obj [("pages",
              .arr [.str "intro", .str "guide/si84FeKzFRrGL6u53ckCQU/setup"])])]))
      = Option.map (fun r => (r.docs, r.report))
        (runPipeline []
          (.obj [("navigation",
            .obj [("pages",
              .arr [.str "intro", .str "guide/si84FeKzFRrGL6u53ckCQU/setup"])])]))) ∧
    (∃ nav pages nav',
      objLookup [("navigation",
          .obj [("pages",
            .arr [.str "intro", .str "guide/si84FeKzFRrGL6u53ckCQU/setup"])])]
          "navigation" = some nav ∧
      extract_all_pages nav = some pages ∧
      update_nav_structure (build_path_mapping pages) nav = some nav' ∧
      ({ fs := ["guide/setup.mdx"],
         docs := .obj [("navigation",
                   .obj [("pages", .arr [.str "intro", .str "guide/setup"])])],
         report := { total_changes := 1,
                     changes := [("/guide/si84FeKzFRrGL6u53ckCQU/setup",
                                  "/guide/setup")] } } : RunResult).docs
        = .obj (objSet [("navigation",
            .obj [("pages",
              .arr [.str "intro", .str "guide/si84FeKzFRrGL6u53ckCQU/setup"])])]
            "navigation" nav') ∧
      extract_all_pages nav'
        = some (pages.map (dictGet (build_path_mapping pages)))) :=
  ⟨(C5_rewrite_fs_independent ["guide/si84FeKzFRrGL6u53ckCQU/setup.mdx"] []
      (.obj [("navigation",
        .obj [("pages",
          .arr [.str "intro", .str "guide/si84FeKzFRrGL6u53ckCQU/setup"])])])).1,
   (C5_rewrite_fs_independent ["guide/si84FeKzFRrGL6u53ckCQU/setup.mdx"] []
      (.obj [("navigation",
        .obj [("pages",
          .arr [.str "intro", .str "guide/si84FeKzFRrGL6u53ckCQU/setup"])])])).2
      { fs := ["guide/setup.mdx"],
        docs := .obj [("navigation",
                  .obj [("pages", .arr [.str "intro", .str "guide/setup"])])],
        report := { total_changes := 1,
                    changes := [("/guide/si84FeKzFRrGL6u53ckCQU/setup",
                                 "/guide/setup")] } }
      [("navigation",
        .obj [("pages",
          .arr [.str "intro", .str "guide/si84FeKzFRrGL6u53ckCQU/setup"])])]
      rfl rfl⟩

/-! ### Totality of the walkers (C4) -/

mutual

theorem wfUpdJ (m : List (String × String)) (j : Json) (hw : wfJ j = true) :
    ∃ j', update_nav_structure m j = some j' := by
  match j with
  | .obj kvs =>
    rw [show wfJ (.obj kvs) = wfKvs kvs from rfl] at hw
    obtain ⟨kvs', hk⟩ := wfUpdKvs m kvs hw
    exact ⟨.obj kvs', by simp [update_nav_structure, hk]⟩
  | .arr items =>
    rw [show wfJ (.arr items) = wfItems items from rfl] at hw
    obtain ⟨items', hi⟩ := wfUpdItems m items hw
    exact ⟨.arr items', by simp [update_nav_structure, hi]⟩
  | .str s => exact ⟨.str s, rfl⟩
  | .num n => exact ⟨.num n, rfl⟩
  | .bool b => exact ⟨.bool b, rfl⟩
  | .null => exact ⟨.null, rfl⟩

theorem wfUpdKvs (m : List (String × String)) (kvs : List (String × Json))
    (hw : wfKvs kvs = true) : ∃ kvs', updateKvs m kvs = some kvs' := by
  match kvs with
  | [] => exact ⟨[], rfl⟩
  | (k, v) :: rest =>
    simp only [wfKvs, Bool.and_eq_true] at hw
    obtain ⟨⟨hif, hv⟩, hrest⟩ := hw
    obtain ⟨rest', hrest2⟩ := wfUpdKvs m rest hrest
    by_cases hk : k = "pages"
    · rw [if_pos hk] at hif
      obtain ⟨v', hv2⟩ := wfUpdPv m v hif hv
      exact ⟨(k, v') :: rest', by simp [updateKvs, hk, hv2, hrest2]⟩
    · obtain ⟨v', hv2⟩ := wfUpdJ m v hv
      exact ⟨(k, v') :: rest', by simp [updateKvs, hk, hv2, hrest2]⟩

theorem wfUpdPv (m : List (String × String)) (v : Json)
    (hit : isIterable v = true) (hw : wfJ v = true) :
    ∃ v', updatePagesValue m v = some v' := by
  match v with
  | .arr items =>
    rw [show wfJ (.arr items) = wfItems items from rfl] at hw
    obtain ⟨items', hi⟩ := wfUpdItems m items hw
    exact ⟨.arr items', by simp [updatePagesValue, hi]⟩
  | .str s => exact ⟨_, rfl⟩
  | .obj kvs => exact ⟨_, rfl⟩
  | .num n => simp [isIterable] at hit
  | .bool b => simp [isIterable] at hit
  | .null => simp [isIterable] at hit

theorem wfUpdItems (m : List (String × String)) (items : List Json)
    (hw : wfItems items = true) : ∃ items', updateItems m items = some items' := by
  match items with
  | [] => exact ⟨[], rfl⟩
  | item :: rest =>
    simp only [wfItems, Bool.and_eq_true] at hw
    obtain ⟨hitem, hrest⟩ := hw
    obtain ⟨rest', hrest2⟩ := wfUpdItems m rest hrest
    match item with
    | .str s => exact ⟨.str (dictGet m s) :: rest', by simp [updateItems, hrest2]⟩
    | .obj kvs =>
      obtain ⟨item', hitem2⟩ := wfUpdJ m (.obj kvs) hitem
      exact ⟨item' :: rest', by simp [updateItems, hitem2, hrest2]⟩
    | .arr l =>
      obtain ⟨item', hitem2⟩ := wfUpdJ m (.arr l) hitem
      exact ⟨item' :: rest', by simp [updateItems, hitem2, hrest2]⟩
    | .num n => exact ⟨.num n :: rest', by simp [updateItems, update_nav_structure, hrest2]⟩
    | .bool b => exact ⟨.bool b :: rest', by simp [updateItems, update_nav_structure, hrest2]⟩
    | .null => exact ⟨.null :: rest', by simp [updateItems, update_nav_structure, hrest2]⟩

end

/-- C4 (amended): any value that is neither a dict nor a list is treated
by both walkers as an unchanged leaf, and on any tree all of whose `pages`
values are iterable both walkers succeed; but — contrary to the original
claim — a `pages` field holding a non-iterable value (a number, boolean or
`None`) makes both walkers raise `TypeError` instead of treating it as a
leaf. -/
theorem C4_walker_totality_amended (m : List (String × String)) (j : Json) :
    (wfJ j = true →
        (∃ L, extract_all_pages j = some L) ∧
          ∃ j', update_nav_structure m j = some j') ∧
    (isAtom j = true →
        extract_all_pages j = some [] ∧ update_nav_structure m j = some j) := by
  constructor
  · intro hw
    obtain ⟨j', hj⟩ := wfUpdJ m j hw
    obtain ⟨L, hL, -⟩ := corrJ m j j' hj
    exact ⟨⟨L, hL⟩, ⟨j', hj⟩⟩
  · intro ha
    cases j with
    | str s => exact ⟨rfl, rfl⟩
    | num n => exact ⟨rfl, rfl⟩
    | bool b => exact ⟨rfl, rfl⟩
    | null => exact ⟨rfl, rfl⟩
    | arr l => simp [isAtom] at ha
    | obj kvs => simp [isAtom] at ha

/-- C4 counterexample: on a dict whose `pages` field holds `None`, both
walkers raise (`none` in the embedding) instead of passing the node
through as an unchanged leaf. -/
theorem C4_walker_totality_counterexample :
    extract_all_pages (.obj [("pages", Json.null)]) = none ∧
      update_nav_structure [] (.obj [("pages", Json.null)]) = none :=
  ⟨rfl, rfl⟩

/-- C4 witness: a well-formed tree with numeric and null list items, and a
bare numeric leaf. -/
theorem C4_walker_totality_amended_witness :
    ((∃ L, extract_all_pages
          (.obj [("pages", .arr [.str "intro", .num 7, Json.null])]) = some L) ∧
      ∃ j', update_nav_structure []
          (.obj [("pages", .arr [.str "intro", .num 7, Json.null])]) = some j') ∧
    (extract_all_pages (.num 7) = some [] ∧
      update_nav_structure [] (.num 7) = some (.num 7)) :=
  ⟨(C4_walker_totality_amended []
      (.obj [("pages", .arr [.str "intro", .num 7, Json.null])])).1 (by decide),
   (C4_walker_totality_amended [] (.num 7)).2 (by decide)⟩

/-! ### The manifest rewrite touches only the navigation field (C8) -/

theorem objLookup_objSet_ne (kvs : List (String × Json)) (key k : String) (v : Json)
    (hne : k ≠ key) : objLookup (objSet kvs key v) k = objLookup kvs k := by
  induction kvs with
  | nil => rfl
  | cons e rest ih =>
    obtain ⟨k', v'⟩ := e
    show objLookup ((if k' = key then (key, v) else (k', v')) :: objSet rest key v) k
      = objLookup ((k', v') :: rest) k
    by_cases hk : k' = key
    · rw [if_pos hk]
      show (if key = k then some v else objLookup (objSet rest key v) k)
        = if k' = k then some v' else objLookup rest k
      rw [if_neg (fun h => hne h.symm), if_neg (fun h : k' = k => hne ((h ▸ hk : k = key)))]
      exact ih
    · rw [if_neg hk]
      show (if k' = k then some v' else objLookup (objSet rest key v) k)
        = if k' = k then some v' else objLookup rest k
      by_cases hk2 : k' = k
      · rw [if_pos hk2, if_pos hk2]
      · rw [if_neg hk2, if_neg hk2]
        exact ih

/-- C8: the manifest rewrite step changes only the `navigation` field —
every other top-level key of the document looks up to exactly its original
value in the rewritten document. -/
theorem C8_update_docs_frame (m : List (String × String)) (docs d' : Json)
    (h : update_docs_json m docs = some d') (k : String) (hk : k ≠ "navigation") :
    topLookup d' k = topLookup docs k := by
  cases docs with
  | obj kvs =>
    simp only [update_docs_json, Option.bind_eq_bind, Option.bind_eq_some,
      Option.pure_def, Option.some.injEq] at h
    obtain ⟨nav, hnav, nav', hnav', heq⟩ := h
    subst heq
    show objLookup (objSet kvs "navigation" nav') k = objLookup kvs k
    exact objLookup_objSet_ne kvs "navigation" k nav' hk
  | str s => simp [update_docs_json] at h
  | num n => simp [update_docs_json] at h
  | bool b => simp [update_docs_json] at h
  | null => simp [update_docs_json] at h
  | arr l => simp [update_docs_json] at h

/-- C8 witness: a two-field manifest whose `theme` field survives the
rewrite unchanged. -/
theorem C8_update_docs_frame_witness :
    topLookup (.obj [("navigation", .obj [("pages", .arr [.str "b"])]),
        ("theme", .str "dark")]) "theme"
      = topLookup (.obj [("navigation", .obj [("pages", .arr [.str "a"])]),
          ("theme", .str "dark")]) "theme" :=
  C8_update_docs_frame [("a", "b")]
    (.obj [("navigation", .obj [("pages", .arr [.str "a"])]), ("theme", .str "dark")])
    (.obj [("navigation", .obj [("pages", .arr [.str "b"])]), ("theme", .str "dark")])
    rfl "theme" (by decide)

/-! ### Where the walkers read and write (C10) -/

mutual

theorem palAJ (j : Json) (L : List String) (s : String)
    (hp : pagesAreLists j = true) (he : extract_all_pages j = some L) (hs : s ∈ L) :
    inPagesLists s j = true := by
  match j with
  | .obj kvs =>
    rw [show pagesAreLists (.obj kvs) = palKvs kvs from rfl] at hp
    simp only [extract_all_pages, Option.bind_eq_bind, Option.bind_eq_some,
      Option.pure_def, Option.some.injEq] at he
    obtain ⟨A, hA, B, hB, heq⟩ := he
    subst heq
    show inPagesListsKvs s kvs = true
    rcases List.mem_append.mp hs with h | h
    · exact palAPagesPart kvs A s hp hA h
    · exact palAOthers kvs B s hp hB h
  | .arr items =>
    rw [show pagesAreLists (.arr items) = palItems items from rfl] at hp
    show inPagesListsItems s items = true
    exact palAItemsL items L s hp he hs
  | .str t =>
    simp only [extract_all_pages, Option.pure_def, Option.some.injEq] at he
    subst he
    cases hs
  | .num n =>
    simp only [extract_all_pages, Option.pure_def, Option.some.injEq] at he
    subst he
    cases hs
  | .bool b =>
    simp only [extract_all_pages, Option.pure_def, Option.some.injEq] at he
    subst he
    cases hs
  | .null =>
    simp only [extract_all_pages, Option.pure_def, Option.some.injEq] at he
    subst he
    cases hs

theorem palAPagesPart (kvs : List (String × Json)) (A : List String) (s : String)
    (hp : palKvs kvs = true) (he : extractPagesPart kvs = some A) (hs : s ∈ A) :
    inPagesListsKvs s kvs = true := by
  match kvs with
  | [] =>
    simp only [extractPagesPart, Option.pure_def, Option.some.injEq] at he
    subst he
    cases hs
  | (k, v) :: rest =>
    simp only [palKvs, Bool.and_eq_true] at hp
    obtain ⟨⟨hif, hv⟩, hrest⟩ := hp
    show ((decide (k = "pages") && strInList s v || inPagesLists s v)
        || inPagesListsKvs s rest) = true
    simp only [Bool.or_eq_true, Bool.and_eq_true, decide_eq_true_eq]
    by_cases hk : k = "pages"
    · rw [if_pos hk] at hif
      simp only [extractPagesPart, hk, if_pos] at he
      match v, hif, hv, he with
      | .arr items, _, hv, he =>
        rw [show pagesAreLists (.arr items) = palItems items from rfl] at hv
        rw [show extractPagesValue (.arr items) = extractPageItems items from rfl] at he
        rcases palAItemsP items A s hv he hs with h | h
        · exact .inl (.inl ⟨hk, h⟩)
        · exact .inl (.inr h)
      | .str t, hif, _, _ => simp [isArr] at hif
      | .obj kvs2, hif, _, _ => simp [isArr] at hif
      | .num n, hif, _, _ => simp [isArr] at hif
      | .bool b, hif, _, _ => simp [isArr] at hif
      | .null, hif, _, _ => simp [isArr] at hif
    · simp only [extractPagesPart, hk, if_neg, if_false] at he
      exact .inr (palAPagesPart rest A s hrest he hs)

theorem palAOthers (kvs : List (String × Json)) (B : List String) (s : String)
    (hp : palKvs kvs = true) (he : extractOthers kvs = some B) (hs : s ∈ B) :
    inPagesListsKvs s kvs = true := by
  match kvs with
  | [] =>
    simp only [extractOthers, Option.pure_def, Option.some.injEq] at he
    subst he
    cases hs
  | (k, v) :: rest =>
    simp only [palKvs, Bool.and_eq_true] at hp
    obtain ⟨⟨hif, hv⟩, hrest⟩ := hp
    show ((decide (k = "pages") && strInList s v || inPagesLists s v)
        || inPagesListsKvs s rest) = true
    simp only [Bool.or_eq_true, Bool.and_eq_true, decide_eq_true_eq]
    by_cases hk : k = "pages"
    · simp only [extractOthers, hk, if_pos] at he
      exact .inr (palAOthers rest B s hrest he hs)
    · simp only [extractOthers, hk, if_neg, if_false, Option.bind_eq_bind,
        Option.bind_eq_some, Option.pure_def, Option.some.injEq] at he
      obtain ⟨S, hS, T, hT, heq⟩ := he
      subst heq
      rcases List.mem_append.mp hs with h | h
      · exact .inl (.inr (palAJ v S s hv hS h))
      · exact .inr (palAOthers rest T s hrest hT h)

theorem palAItemsP (items : List Json) (L : List String) (s : String)
    (hp : palItems items = true) (he : extractPageItems items = some L) (hs : s ∈ L) :
    strDirectElem s items = true ∨ inPagesListsItems s items = true := by
  match items with
  | [] =>
    simp only [extractPageItems, Option.pure_def, Option.some.injEq] at he
    subst he
    cases hs
  | item :: rest =>
    simp only [palItems, Bool.and_eq_true] at hp
    obtain ⟨hitem, hrest⟩ := hp
    match item with
    | .str t =>
      simp only [extractPageItems, Option.bind_eq_bind, Option.bind_eq_some,
        Option.pure_def, Option.some_bind, Option.some.injEq] at he
      obtain ⟨tail, htail, heq⟩ := he
      subst heq
      rcases List.mem_cons.mp hs with h0 | h
      · left
        show (decide (t = s) || strDirectElem s rest) = true
        simp [h0]
      · rcases palAItemsP rest tail s hrest htail h with h2 | h2
        · left
          show (decide (t = s) || strDirectElem s rest) = true
          simp [h2]
        · right
          show (inPagesLists s (.str t) || inPagesListsItems s rest) = true
          simp only [h2, Bool.or_true]
    | .obj kvs =>
      simp only [extractPageItems, Option.bind_eq_bind, Option.bind_eq_some,
        Option.pure_def, Option.some.injEq] at he
      obtain ⟨tail, htail, sub, hsub, heq⟩ := he
      subst heq
      rcases List.mem_append.mp hs with h | h
      · right
        show (inPagesLists s (.obj kvs) || inPagesListsItems s rest) = true
        simp only [palAJ (.obj kvs) sub s hitem hsub h, Bool.true_or]
      · rcases palAItemsP rest tail s hrest htail h with h2 | h2
        · left
          exact h2
        · right
          show (inPagesLists s (.obj kvs) || inPagesListsItems s rest) = true
          simp only [h2, Bool.or_true]
    | .arr l =>
      simp only [extractPageItems, Option.bind_eq_bind, Option.bind_eq_some,
        Option.pure_def, Option.some_bind, Option.some.injEq] at he
      obtain ⟨tail, htail, heq⟩ := he
      subst heq
      rcases palAItemsP rest tail s hrest htail hs with h2 | h2
      · left
        exact h2
      · right
        show (inPagesLists s (.arr l) || inPagesListsItems s rest) = true
        simp only [h2, Bool.or_true]
    | .num n =>
      simp only [extractPageItems, Option.bind_eq_bind, Option.bind_eq_some,
        Option.pure_def, Option.some_bind, Option.some.injEq] at he
      obtain ⟨tail, htail, heq⟩ := he
      subst heq
      rcases palAItemsP rest tail s hrest htail hs with h2 | h2
      · left
        exact h2
      · right
        show (inPagesLists s (.num n) || inPagesListsItems s rest) = true
        simp only [h2, Bool.or_true]
    | .bool b =>
      simp only [extractPageItems, Option.bind_eq_bind, Option.bind_eq_some,
        Option.pure_def, Option.some_bind, Option.some.injEq] at he
      obtain ⟨tail, htail, heq⟩ := he
      subst heq
      rcases palAItemsP rest tail s hrest htail hs with h2 | h2
      · left
        exact h2
      · right
        show (inPagesLists s (.bool b) || inPagesListsItems s rest) = true
        simp only [h2, Bool.or_true]
    | .null =>
      simp only [extractPageItems, Option.bind_eq_bind, Option.bind_eq_some,
        Option.pure_def, Option.some_bind, Option.some.injEq] at he
      obtain ⟨tail, htail, heq⟩ := he
      subst heq
      rcases palAItemsP rest tail s hrest htail hs with h2 | h2
      · left
        exact h2
      · right
        show (inPagesLists s .null || inPagesListsItems s rest) = true
        simp only [h2, Bool.or_true]

theorem palAItemsL (items : List Json) (L : List String) (s : String)
    (hp : palItems items = true) (he : extractList items = some L) (hs : s ∈ L) :
    inPagesListsItems s items = true := by
  match items with
  | [] =>
    simp only [extractList, Option.pure_def, Option.some.injEq] at he
    subst he
    cases hs
  | item :: rest =>
    simp only [palItems, Bool.and_eq_true] at hp
    obtain ⟨hitem, hrest⟩ := hp
    simp only [extractList, Option.bind_eq_bind, Option.bind_eq_some,
      Option.pure_def, Option.some.injEq] at he
    obtain ⟨S, hS, T, hT, heq⟩ := he
    subst heq
    show (inPagesLists s item || inPagesListsItems s rest) = true
    rcases List.mem_append.mp hs with h | h
    · simp only [palAJ item S s hitem hS h, Bool.true_or]
    · simp only [palAItemsL rest T s hrest hT h, Bool.or_true]

end

/-- C10 counterexample: when a `pages` field holds the string `"ab"`, the
collector iterates its characters and yields `"a"` and `"b"`, which do not
occur as direct elements of any list stored under a `pages` key. -/
theorem C10_read_write_positions_counterexample :
    extract_all_pages (.obj [("pages", .str "ab")]) = some ["a", "b"] ∧
      inPagesLists "a" (.obj [("pages", .str "ab")]) = false :=
  ⟨rfl, rfl⟩

/-- Index-wise behaviour of the shared element rewrite: the output list
has the same length, and every direct string element, at every position,
is sent through the mapping lookup. -/
theorem updateItems_length_index (m : List (String × String)) :
    ∀ items items', updateItems m items = some items' →
      items'.length = items.length ∧
      ∀ (i : Nat) (s : String), items[i]? = some (Json.str s) →
        items'[i]? = some (Json.str (dictGet m s)) := by
  intro items
  induction items with
  | nil =>
    intro items' h
    simp only [updateItems, Option.pure_def, Option.some.injEq] at h
    subst h
    refine ⟨rfl, ?_⟩
    intro i s hi
    rw [List.getElem?_nil] at hi
    cases hi
  | cons item rest ih =>
    intro items' h
    match item with
    | .str t =>
      simp only [updateItems, Option.bind_eq_bind, Option.bind_eq_some, Option.pure_def,
        Option.some_bind, Option.some.injEq] at h
      obtain ⟨rest0, hrest, heq⟩ := h
      subst heq
      obtain ⟨hlen, hidx⟩ := ih rest0 hrest
      refine ⟨by simp [hlen], ?_⟩
      intro i s hi
      cases i with
      | zero =>
        rw [List.getElem?_cons_zero] at hi
        injection hi with hi
        injection hi with hi
        subst hi
        exact List.getElem?_cons_zero
      | succ i =>
        rw [List.getElem?_cons_succ] at hi
        rw [List.getElem?_cons_succ]
        exact hidx i s hi
    | .obj kvs =>
      simp only [updateItems, Option.bind_eq_bind, Option.bind_eq_some, Option.pure_def,
        Option.some.injEq] at h
      obtain ⟨item0, hitem, rest0, hrest, heq⟩ := h
      subst heq
      obtain ⟨hlen, hidx⟩ := ih rest0 hrest
      refine ⟨by simp [hlen], ?_⟩
      intro i s hi
      cases i with
      | zero =>
        rw [List.getElem?_cons_zero] at hi
        injection hi with hi
        injection hi
      | succ i =>
        rw [List.getElem?_cons_succ] at hi
        rw [List.getElem?_cons_succ]
        exact hidx i s hi
    | .arr l =>
      simp only [updateItems, Option.bind_eq_bind, Option.bind_eq_some, Option.pure_def,
        Option.some.injEq] at h
      obtain ⟨item0, hitem, rest0, hrest, heq⟩ := h
      subst heq
      obtain ⟨hlen, hidx⟩ := ih rest0 hrest
      refine ⟨by simp [hlen], ?_⟩
      intro i s hi
      cases i with
      | zero =>
        rw [List.getElem?_cons_zero] at hi
        injection hi with hi
        injection hi
      | succ i =>
        rw [List.getElem?_cons_succ] at hi
        rw [List.getElem?_cons_succ]
        exact hidx i s hi
    | .num n =>
      simp only [updateItems, Option.bind_eq_bind, Option.bind_eq_some, Option.pure_def,
        Option.some.injEq] at h
      obtain ⟨item0, hitem, rest0, hrest, heq⟩ := h
      subst heq
      obtain ⟨hlen, hidx⟩ := ih rest0 hrest
      refine ⟨by simp [hlen], ?_⟩
      intro i s hi
      cases i with
      | zero =>
        rw [List.getElem?_cons_zero] at hi
        injection hi with hi
        injection hi
      | succ i =>
        rw [List.getElem?_cons_succ] at hi
        rw [List.getElem?_cons_succ]
        exact hidx i s hi
    | .bool b =>
      simp only [updateItems, Option.bind_eq_bind, Option.bind_eq_some, Option.pure_def,
        Option.some.injEq] at h
      obtain ⟨item0, hitem, rest0, hrest, heq⟩ := h
      subst heq
      obtain ⟨hlen, hidx⟩ := ih rest0 hrest
      refine ⟨by simp [hlen], ?_⟩
      intro i s hi
      cases i with
      | zero =>
        rw [List.getElem?_cons_zero] at hi
        injection hi with hi
        injection hi
      | succ i =>
        rw [List.getElem?_cons_succ] at hi
        rw [List.getElem?_cons_succ]
        exact hidx i s hi
    | .null =>
      simp only [updateItems, Option.bind_eq_bind, Option.bind_eq_some, Option.pure_def,
        Option.some.injEq] at h
      obtain ⟨item0, hitem, rest0, hrest, heq⟩ := h
      subst heq
      obtain ⟨hlen, hidx⟩ := ih rest0 hrest
      refine ⟨by simp [hlen], ?_⟩
      intro i s hi
      cases i with
      | zero =>
        rw [List.getElem?_cons_zero] at hi
        injection hi with hi
        injection hi
      | succ i =>
        rw [List.getElem?_cons_succ] at hi
        rw [List.getElem?_cons_succ]
        exact hidx i s hi

/-- The rewrite of any list node goes through `updateItems`. -/
theorem update_arr_inv (m : List (String × String)) (l : List Json) (j' : Json)
    (h : update_nav_structure m (.arr l) = some j') :
    ∃ l', j' = .arr l' ∧ updateItems m l = some l' := by
  simp only [update_nav_structure, Option.bind_eq_bind, Option.bind_eq_some,
    Option.pure_def, Option.some.injEq] at h
  obtain ⟨l', hl, heq⟩ := h
  exact ⟨l', heq.symm, hl⟩

/-- The `pages` rewrite of a list value also goes through `updateItems`. -/
theorem updatePagesValue_arr_inv (m : List (String × String)) (l : List Json) (v' : Json)
    (h : updatePagesValue m (.arr l) = some v') :
    ∃ l', v' = .arr l' ∧ updateItems m l = some l' := by
  simp only [updatePagesValue, Option.bind_eq_bind, Option.bind_eq_some,
    Option.pure_def, Option.some.injEq] at h
  obtain ⟨l', hl, heq⟩ := h
  exact ⟨l', heq.symm, hl⟩

/-- A bare string handed to the rewrite is returned verbatim. -/
theorem update_str_inv (m : List (String × String)) (s : String) (j' : Json)
    (h : update_nav_structure m (.str s) = some j') : j' = .str s := by
  simp only [update_nav_structure, Option.pure_def, Option.some.injEq] at h
  exact h.symm

/-- Index-wise behaviour of the dict rewrite: keys, order and length are
preserved; a list value at any position (under any key, `pages` or not)
is rewritten by `updateItems`; a string value of a non-`pages` key at any
position is kept identical. -/
theorem updateKvs_length_index (m : List (String × String)) :
    ∀ kvs kvs', updateKvs m kvs = some kvs' →
      kvs'.length = kvs.length ∧
      (∀ (i : Nat) (k : String) (l : List Json), kvs[i]? = some (k, Json.arr l) →
        ∃ l', kvs'[i]? = some (k, Json.arr l') ∧ updateItems m l = some l') ∧
      (∀ (i : Nat) (k s : String), kvs[i]? = some (k, Json.str s) → k ≠ "pages" →
        kvs'[i]? = some (k, Json.str s)) := by
  intro kvs
  induction kvs with
  | nil =>
    intro kvs' h
    simp only [updateKvs, Option.pure_def, Option.some.injEq] at h
    subst h
    refine ⟨rfl, ?_, ?_⟩
    · intro i k l hi
      rw [List.getElem?_nil] at hi
      cases hi
    · intro i k s hi
      rw [List.getElem?_nil] at hi
      cases hi
  | cons e rest ih =>
    obtain ⟨k0, v0⟩ := e
    intro kvs' h
    by_cases hk0 : k0 = "pages"
    · simp only [updateKvs, hk0, if_pos, Option.bind_eq_bind, Option.bind_eq_some,
        Option.pure_def, Option.some.injEq] at h
      obtain ⟨w0, hw, rest0, hrest, heq⟩ := h
      subst heq
      obtain ⟨hlen, harr, hstr⟩ := ih rest0 hrest
      refine ⟨by simp [hlen], ?_, ?_⟩
      · intro i k l hi
        cases i with
        | zero =>
          rw [List.getElem?_cons_zero] at hi
          injection hi with hi
          injection hi with hk hv
          subst hk
          subst hv
          obtain ⟨l', hl', hupd⟩ := updatePagesValue_arr_inv m l w0 hw
          subst hl'
          exact ⟨l', by rw [List.getElem?_cons_zero, hk0], hupd⟩
        | succ i =>
          rw [List.getElem?_cons_succ] at hi
          obtain ⟨l', hl', hupd⟩ := harr i k l hi
          exact ⟨l', by rw [List.getElem?_cons_succ]; exact hl', hupd⟩
      · intro i k s hi hk
        cases i with
        | zero =>
          rw [List.getElem?_cons_zero] at hi
          injection hi with hi
          injection hi with hke hv
          exact absurd (hke.symm.trans hk0) hk
        | succ i =>
          rw [List.getElem?_cons_succ] at hi
          rw [List.getElem?_cons_succ]
          exact hstr i k s hi hk
    · simp only [updateKvs, hk0, if_neg, if_false, Option.bind_eq_bind,
        Option.bind_eq_some, Option.pure_def, Option.some.injEq] at h
      obtain ⟨w0, hw, rest0, hrest, heq⟩ := h
      subst heq
      obtain ⟨hlen, harr, hstr⟩ := ih rest0 hrest
      refine ⟨by simp [hlen], ?_, ?_⟩
      · intro i k l hi
        cases i with
        | zero =>
          rw [List.getElem?_cons_zero] at hi
          injection hi with hi
          injection hi with hk hv
          subst hk
          subst hv
          obtain ⟨l', hl', hupd⟩ := update_arr_inv m l w0 hw
          subst hl'
          exact ⟨l', by rw [List.getElem?_cons_zero], hupd⟩
        | succ i =>
          rw [List.getElem?_cons_succ] at hi
          obtain ⟨l', hl', hupd⟩ := harr i k l hi
          exact ⟨l', by rw [List.getElem?_cons_succ]; exact hl', hupd⟩
      · intro i k s hi hk
        cases i with
        | zero =>
          rw [List.getElem?_cons_zero] at hi
          injection hi with hi
          injection hi with hke hv
          subst hke
          subst hv
          have hw2 := update_str_inv m s w0 hw
          subst hw2
          rw [List.getElem?_cons_zero]
        | succ i =>
          rw [List.getElem?_cons_succ] at hi
          rw [List.getElem?_cons_succ]
          exact hstr i k s hi hk

/-- Dropping a non-`pages` entry does not change which `pages` value the
collector iterates. -/
theorem extractPagesPart_drop (kvs1 kvs2 : List (String × Json)) (k : String) (v : Json)
    (hk : k ≠ "pages") :
    extractPagesPart (kvs1 ++ (k, v) :: kvs2) = extractPagesPart (kvs1 ++ kvs2) := by
  induction kvs1 with
  | nil => simp [extractPagesPart, hk]
  | cons e rest ih =>
    obtain ⟨k0, v0⟩ := e
    by_cases hk0 : k0 = "pages"
    · simp [extractPagesPart, hk0]
    · simp only [List.cons_append, extractPagesPart, hk0, if_neg, if_false]
      exact ih

/-- A string stored as the direct value of a non-`pages` key, at any
position of any dict, contributes nothing to the non-`pages` sweep of the
collector. -/
theorem extractOthers_drop (kvs1 kvs2 : List (String × Json)) (k s : String)
    (hk : k ≠ "pages") :
    extractOthers (kvs1 ++ (k, .str s) :: kvs2) = extractOthers (kvs1 ++ kvs2) := by
  induction kvs1 with
  | nil =>
    show extractOthers ((k, .str s) :: kvs2) = extractOthers kvs2
    simp only [extractOthers, hk, if_neg, if_false]
    cases h2 : extractOthers kvs2 with
    | none => simp [extract_all_pages, h2]
    | some t => simp [extract_all_pages, h2]
  | cons e rest ih =>
    obtain ⟨k0, v0⟩ := e
    by_cases hk0 : k0 = "pages"
    · show extractOthers ((k0, v0) :: (rest ++ (k, .str s) :: kvs2))
        = extractOthers ((k0, v0) :: (rest ++ kvs2))
      simp only [extractOthers, hk0, if_pos]
      exact ih
    · show extractOthers ((k0, v0) :: (rest ++ (k, .str s) :: kvs2))
        = extractOthers ((k0, v0) :: (rest ++ kvs2))
      simp only [extractOthers, hk0, if_neg, if_false, ih]

/-- A string stored as the direct value of a non-`pages` key, at any
position of any dict, is never collected: the collector's result is the
same with the entry removed. -/
theorem extract_obj_drop_str (kvs1 kvs2 : List (String × Json)) (k s : String)
    (hk : k ≠ "pages") :
    extract_all_pages (.obj (kvs1 ++ (k, .str s) :: kvs2))
      = extract_all_pages (.obj (kvs1 ++ kvs2)) := by
  simp only [extract_all_pages, extractPagesPart_drop kvs1 kvs2 k (.str s) hk,
    extractOthers_drop kvs1 kvs2 k s hk]

/-- C10 (amended): on trees where every `pages` value is a list, every
collected string occurs as a direct element of a list stored under a
`pages` key; the rewrite sends every direct string element of every list
it processes — the element rewrite used for the `pages` value, for every
other list value of a dict, and for every list node — through the mapping
lookup at every position, while keys, order and lengths are preserved;
and a string that is the direct value of a non-`pages` key, at any
position of any dict, is neither collected nor replaced. -/
theorem C10_read_write_positions_amended :
    (∀ j L s, pagesAreLists j = true → extract_all_pages j = some L → s ∈ L →
        inPagesLists s j = true) ∧
    (∀ (m : List (String × String)) (items items' : List Json),
        updateItems m items = some items' →
        items'.length = items.length ∧
        ∀ (i : Nat) (s : String), items[i]? = some (Json.str s) →
          items'[i]? = some (Json.str (dictGet m s))) ∧
    (∀ (m : List (String × String)) (l : List Json) (j' : Json),
        update_nav_structure m (.arr l) = some j' →
        ∃ l', j' = .arr l' ∧ updateItems m l = some l') ∧
    (∀ (m : List (String × String)) (kvs kvs' : List (String × Json)),
        updateKvs m kvs = some kvs' →
        kvs'.length = kvs.length ∧
        (∀ (i : Nat) (k : String) (l : List Json), kvs[i]? = some (k, Json.arr l) →
          ∃ l', kvs'[i]? = some (k, Json.arr l') ∧ updateItems m l = some l') ∧
        (∀ (i : Nat) (k s : String), kvs[i]? = some (k, Json.str s) → k ≠ "pages" →
          kvs'[i]? = some (k, Json.str s))) ∧
    (∀ (kvs1 kvs2 : List (String × Json)) (k s : String), k ≠ "pages" →
        extract_all_pages (.obj (kvs1 ++ (k, .str s) :: kvs2))
          = extract_all_pages (.obj (kvs1 ++ kvs2))) :=
  ⟨fun j L s hp he hs => palAJ j L s hp he hs,
   fun m items items' h => updateItems_length_index m items items' h,
   fun m l j' h => update_arr_inv m l j' h,
   fun m kvs kvs' h => updateKvs_length_index m kvs kvs' h,
   fun kvs1 kvs2 k s hk => extract_obj_drop_str kvs1 kvs2 k s hk⟩

/-- C10 witness: a collected leaf sits in a `pages` list; a mapped string
inside a list is replaced at its index, also under a non-`pages` key,
while a string that is the direct value of a non-`pages` key is kept and
never collected. -/
theorem C10_read_write_positions_amended_witness :
    inPagesLists "a" (.obj [("pages", .arr [.str "a"])]) = true ∧
    [Json.str "b", Json.num 3][0]? = some (Json.str (dictGet [("a", "b")] "a")) ∧
    (∃ l', Json.arr [Json.str "b"] = Json.arr l' ∧
      updateItems [("a", "b")] [Json.str "a"] = some l') ∧
    (∃ l', [("group", Json.arr [Json.str "b"])][0]? = some ("group", Json.arr l') ∧
      updateItems [("a", "b")] [Json.str "a"] = some l') ∧
    [("title", Json.str "a")][0]? = some ("title", Json.str "a") ∧
    extract_all_pages (.obj ([("pages", .arr [.str "x"])] ++ ("note", .str "a") :: []))
      = extract_all_pages (.obj ([("pages", .arr [.str "x"])] ++ [])) :=
  ⟨C10_read_write_positions_amended.1 (.obj [("pages", .arr [.str "a"])]) ["a"] "a"
      (by decide) rfl (by decide),
   (C10_read_write_positions_amended.2.1 [("a", "b")] [Json.str "a", Json.num 3]
      [Json.str "b", Json.num 3] rfl).2 0 "a" rfl,
   C10_read_write_positions_amended.2.2.1 [("a", "b")] [Json.str "a"]
      (Json.arr [Json.str "b"]) rfl,
   (C10_read_write_positions_amended.2.2.2.1 [("a", "b")]
      [("group", Json.arr [Json.str "a"])] [("group", Json.arr [Json.str "b"])] rfl).2.1
      0 "group" [Json.str "a"] rfl,
   (C10_read_write_positions_amended.2.2.2.1 [("a", "b")] [("title", Json.str "a")]
      [("title", Json.str "a")] rfl).2.2 0 "title" "a" rfl (by decide),
   C10_read_write_positions_amended.2.2.2.2 [("pages", .arr [.str "x"])] []
      "note" "a" (by decide)⟩
